import Mathlib

/-!
# Credential store and CRUD handlers of `fyne-login/main.go`

A shallow embedding of the backend half of `main.go`: the `users` table created by
`initDB`, the direct credential check `Authenticate`, and the four HTTP handlers
`getUsers`, `createUser`, `updateUser`, `deleteUser`.

Modelling conventions.

* The process-wide handle `db` becomes an explicit value of type `DB` that every
  operation receives and returns.
* The table is the list of its rows in scan order together with the
  `AUTOINCREMENT` counter kept by the engine (`sqlite_sequence`).  The columns
  `username` and `password` are declared without `NOT NULL`, so a stored value is
  an `Option String`.
* The text of an `Atoi` error is kept as the input and the kind of error.
* Row ids are mathematical integers; the engine's 64-bit rowid ceiling is not
  represented.  `strconv.Atoi` is modelled with the 64-bit `int` range.
* Only the engine failures caused by the table's own constraints are
  represented; environmental failures (I/O, locking) are not.
* `encoding/json` is not part of this repository: the decoder of request bodies
  is a parameter `decode` of the handlers that use it, and response bodies are
  kept as JSON values rather than text.
* The widget code (`ShowLoginWindow`, `ShowCRUDWindow`) is presentation only and
  is not modelled.
-/

namespace FyneLogin

/-! ## Data model -/

deriving instance DecidableEq for Except

/-- User is the Go struct `User`, the record exchanged as JSON. -/
structure User where
  ID : Int
  Username : String
  Password : String
deriving DecidableEq, Repr

/-- Row is one row of the table `users`: `id` is the integer primary key, the two
text columns are nullable. -/
structure Row where
  id : Int
  username : Option String
  password : Option String
deriving DecidableEq, Repr

/-- DB is the state behind the handle `db`: the rows of `users` in scan order and
the largest rowid the `AUTOINCREMENT` counter has recorded. -/
structure DB where
  rows : List Row
  seq : Int
deriving DecidableEq, Repr

/-- Json is the shape of a JSON document as produced by `json.Encoder`. -/
inductive Json where
  | null : Json
  | num (n : Int) : Json
  | str (s : String) : Json
  | arr (items : List Json) : Json
  | obj (fields : List (String × Json)) : Json

/-- The error values of `strconv`. -/
inductive NumError where
  | invalid : NumError
  | outOfRange : NumError
deriving DecidableEq, Repr

/-- Body is what a handler writes after the status line: nothing, the line
written by `http.Error` for a message, the line written by `http.Error` for the
error of `strconv.Atoi` on `input`, or an encoded JSON document.  The text of an
`Atoi` error names the input in the form `strconv.Quote` gives it; it is kept as
its two parts and not spelled out. -/
inductive Body where
  | empty : Body
  | text (msg : String) : Body
  | atoiError (input : String) (err : NumError) : Body
  | json (doc : Json) : Body

/-- Response is the observable outcome of a handler. -/
structure Response where
  status : Nat
  body : Body

/-- Request carries the two parts of `*http.Request` the handlers read. -/
structure Request where
  path : String
  body : String

def StatusOK : Nat := 200

def StatusBadRequest : Nat := 400

def StatusInternalServerError : Nat := 500

/-- The helper `http.Error`: the given status with the message as body. -/
def httpError (msg : String) (code : Nat) : Response :=
  ⟨code, Body.text msg⟩

/-! ## Table creation -/

/-- The table of a database file in which `users` does not exist yet. -/
def emptyDB : DB := ⟨[], 0⟩

/-- The statement of `initDB`, `CREATE TABLE IF NOT EXISTS users (...)`: an absent
table is created empty, an existing one is left as it is. -/
def initDB (existing : Option DB) : DB :=
  match existing with
  | none => emptyDB
  | some db => db

/-- The constraints declared by `initDB`: `id` is a primary key, and `username`
is `UNIQUE` (which, in SQL, does not relate NULLs to each other). -/
def DB.Constraints (db : DB) : Prop :=
  db.rows.Pairwise (fun a b => a.id ≠ b.id) ∧
  db.rows.Pairwise (fun a b => ¬ (a.username.isSome ∧ a.username = b.username))

instance (db : DB) : Decidable db.Constraints := by
  unfold DB.Constraints; infer_instance

/-! ## strconv.Atoi -/

def maxInt : Int := 9223372036854775807

def minInt : Int := -9223372036854775808

def maxUint64 : Nat := 18446744073709551615

/-- The digit loop of `strconv.ParseUint` in base 10 and 64 bits, started with the
value read so far: it stops at the first character that is not a digit with a
syntax error, and at the first digit that takes the value past 64 bits with a
range error. -/
def parseUint : List Char → Nat → Except NumError Nat
  | [], n => .ok n
  | c :: cs, n =>
    if c.isDigit then
      if n * 10 + (c.toNat - '0'.toNat) > maxUint64 then .error .outOfRange
      else parseUint cs (n * 10 + (c.toNat - '0'.toNat))
    else .error .invalid

/-- The part of `strconv.ParseInt` after the sign: at least one character, the
unsigned value, then the range check of a 64-bit `int` for the given sign. -/
def atoiDigits (neg : Bool) (ds : List Char) : Except NumError Int :=
  match ds with
  | [] => .error .invalid
  | _ :: _ =>
    match parseUint ds 0 with
    | .error e => .error e
    | .ok un =>
      if neg then
        if (un : Int) > maxInt + 1 then .error .outOfRange else .ok (-(un : Int))
      else
        if (un : Int) > maxInt then .error .outOfRange else .ok (un : Int)

/-- The function `strconv.Atoi` on a platform with 64-bit `int`: an optional sign
followed by decimal digits, within range. -/
def Atoi (s : String) : Except NumError Int :=
  match s.data with
  | [] => .error .invalid
  | c :: cs =>
    if c = '-' then atoiDigits true cs
    else if c = '+' then atoiDigits false cs
    else atoiDigits false (c :: cs)

/-- The number a run of decimal digits denotes. -/
def digitsValue (ds : List Char) : Nat :=
  ds.foldl (fun acc c => acc * 10 + (c.toNat - '0'.toNat)) 0

/-- A decimal integer as text: an optional sign `+` or `-` followed by one or
more decimal digits, whatever their number.  It is stated without reference to
`Atoi`. -/
def isDecimalInteger (s : String) : Bool :=
  match s.data with
  | [] => false
  | c :: cs =>
    if c = '-' ∨ c = '+' then !cs.isEmpty && cs.all Char.isDigit
    else (c :: cs).all Char.isDigit

/-- The integer a decimal integer text denotes. -/
def decimalValue (s : String) : Int :=
  match s.data with
  | [] => 0
  | c :: cs =>
    if c = '-' then -(digitsValue cs : Int)
    else if c = '+' then (digitsValue cs : Int)
    else (digitsValue (c :: cs) : Int)

/-- A decimal integer text whose value a 64-bit `int` can hold. -/
def isDecimalInt64 (s : String) : Bool :=
  isDecimalInteger s && decide (minInt ≤ decimalValue s) && decide (decimalValue s ≤ maxInt)

/-- The slice `r.URL.Path[len("/user/"):]`.  The handlers that take it are only
routed paths that begin with `/user/`, for which bytes and characters agree. -/
def pathTail (path : String) : String :=
  ⟨path.data.drop "/user/".length⟩

/-! ## json.Encoder -/

/-- The encoding of a `User` under its field tags. -/
def encodeUser (u : User) : Json :=
  .obj [("id", .num u.ID), ("username", .str u.Username), ("password", .str u.Password)]

/-- The encoding of a `[]User`: a nil slice is `null`, any other slice an array.
A slice is `none` when nil. -/
def encodeUsers : Option (List User) → Json
  | none => .null
  | some us => .arr (us.map encodeUser)

/-- The builtin `append` on a possibly nil slice. -/
def goAppend {α : Type} (s : Option (List α)) (x : α) : Option (List α) :=
  match s with
  | none => some [x]
  | some xs => some (xs ++ [x])

/-- The elements of a possibly nil slice. -/
def sliceElems {α : Type} (s : Option (List α)) : List α :=
  s.getD []

/-! ## The SQL statements -/

def errNoRows : String := "sql: no rows in result set"

/-- The error of `Scan` on a NULL in the column at `index`.  The column names of
`users` are plain letters, which `%q` writes between double quotes unchanged. -/
def errScanNull (index : Nat) (column : String) : String :=
  "sql: Scan error on column index " ++ toString index ++ ", name \"" ++ column ++
    "\": converting NULL to string is unsupported"

def errUnique : String := "UNIQUE constraint failed: users.username"

/-- The call `db.QueryRow("SELECT password FROM users WHERE username = ?", username)`
followed by `Scan(&dbPassword)`: the first matching row, scanned into a string. -/
def queryPassword (db : DB) (username : String) : Except String String :=
  match db.rows.find? (fun r => r.username == some username) with
  | none => .error errNoRows
  | some r =>
    match r.password with
    | none => .error (errScanNull 0 "password")
    | some pw => .ok pw

/-- The call `db.Query("SELECT id, username, password FROM users")`: the rows of
the table in scan order. -/
def queryUsers (db : DB) : Except String (List Row) :=
  .ok db.rows

/-- The call `rows.Scan(&user.ID, &user.Username, &user.Password)`. -/
def scanUser (r : Row) : Except String User :=
  match r.username, r.password with
  | none, _ => .error (errScanNull 1 "username")
  | some _, none => .error (errScanNull 2 "password")
  | some u, some p => .ok ⟨r.id, u, p⟩

/-- The loop `for rows.Next()` of `getUsers` over the result of
`SELECT id, username, password FROM users`, started with the slice so far. -/
def scanRows : List Row → Option (List User) → Except String (Option (List User))
  | [], users => .ok users
  | r :: rest, users =>
    match scanUser r with
    | .error e => .error e
    | .ok user => scanRows rest (goAppend users user)

/-- The largest rowid in the table, if it has a row. -/
def maxRowid : List Row → Option Int
  | [] => none
  | r :: rest =>
    match maxRowid rest with
    | none => some r.id
    | some m => some (max r.id m)

/-- The rowid an `AUTOINCREMENT` table gives to the next row: one more than the
largest rowid present, and more than every rowid the counter has recorded. -/
def newRowid (db : DB) : Int :=
  let v := match maxRowid db.rows with
    | none => 1
    | some m => m + 1
  max v (db.seq + 1)

/-- The call `db.Exec("INSERT INTO users (username, password) VALUES (?, ?)", ...)`
with `result.LastInsertId()`: rejected when the username is already stored. -/
def execInsert (db : DB) (username password : String) : Except String (DB × Int) :=
  if db.rows.any (fun r => r.username == some username) then
    .error errUnique
  else
    let id := newRowid db
    .ok (⟨db.rows ++ [⟨id, some username, some password⟩], id⟩, id)

/-- The call `db.Exec("UPDATE users SET password = ? WHERE id = ?", password, id)`. -/
def execUpdate (db : DB) (password : String) (id : Int) : Except String DB :=
  .ok ⟨db.rows.map (fun r => if r.id = id then { r with password := some password } else r),
       db.seq⟩

/-- The call `db.Exec("DELETE FROM users WHERE id = ?", id)`. -/
def execDelete (db : DB) (id : Int) : Except String DB :=
  .ok ⟨db.rows.filter (fun r => r.id ≠ id), db.seq⟩

/-! ## Authentication and the handlers -/

/-- The function `Authenticate`: look the stored password up and compare. -/
def Authenticate (db : DB) (username password : String) : DB × Bool :=
  match queryPassword db username with
  | .error _ => (db, false)
  | .ok dbPassword => (db, password == dbPassword)

/-- The handler `getUsers`. -/
def getUsers (db : DB) (_r : Request) : DB × Response :=
  match queryUsers db with
  | .error e => (db, httpError e StatusInternalServerError)
  | .ok rows =>
    match scanRows rows none with
    | .error e => (db, httpError e StatusInternalServerError)
    | .ok users => (db, ⟨StatusOK, .json (encodeUsers users)⟩)

/-- The handler `createUser`; `decode` is `json.NewDecoder(r.Body).Decode(&user)`
on a zero `User`. -/
def createUser (decode : String → Except String User) (db : DB) (r : Request) :
    DB × Response :=
  match decode r.body with
  | .error e => (db, httpError e StatusBadRequest)
  | .ok user =>
    match execInsert db user.Username user.Password with
    | .error e => (db, httpError e StatusInternalServerError)
    | .ok (db', id) => (db', ⟨StatusOK, .json (encodeUser { user with ID := id })⟩)

/-- The handler `updateUser`. -/
def updateUser (decode : String → Except String User) (db : DB) (r : Request) :
    DB × Response :=
  match Atoi (pathTail r.path) with
  | .error e => (db, ⟨StatusBadRequest, .atoiError (pathTail r.path) e⟩)
  | .ok id =>
    match decode r.body with
    | .error e => (db, httpError e StatusBadRequest)
    | .ok user =>
      match execUpdate db user.Password id with
      | .error e => (db, httpError e StatusInternalServerError)
      | .ok db' => (db', ⟨StatusOK, .empty⟩)

/-- The handler `deleteUser`. -/
def deleteUser (db : DB) (r : Request) : DB × Response :=
  match Atoi (pathTail r.path) with
  | .error e => (db, ⟨StatusBadRequest, .atoiError (pathTail r.path) e⟩)
  | .ok id =>
    match execDelete db id with
    | .error e => (db, httpError e StatusInternalServerError)
    | .ok db' => (db', ⟨StatusOK, .empty⟩)

/-! ## Requests as routed by `setupAPIs` -/

/-- Req is a request that `setupAPIs` routes to one of the four handlers: `/users`,
`/user`, and `PUT` or `DELETE` on `/user/` followed by `seg`. -/
inductive Req where
  | list : Req
  | create (body : String) : Req
  | update (seg body : String) : Req
  | delete (seg : String) : Req
deriving DecidableEq, Repr

/-- The routes registered by `setupAPIs`. -/
def setupAPIs (decode : String → Except String User) (db : DB) : Req → DB × Response
  | .list => getUsers db ⟨"/users", ""⟩
  | .create body => createUser decode db ⟨"/user", body⟩
  | .update seg body => updateUser decode db ⟨"/user/" ++ seg, body⟩
  | .delete seg => deleteUser db ⟨"/user/" ++ seg, ""⟩

/-- The exchanges of a run: each request with the response it received. -/
def exchanges (decode : String → Except String User) : DB → List Req → List (Req × Response)
  | _, [] => []
  | db, q :: qs => (q, (setupAPIs decode db q).2) :: exchanges decode (setupAPIs decode db q).1 qs

/-- The store after serving the requests in order. -/
def serveAll (decode : String → Except String User) : DB → List Req → DB
  | db, [] => db
  | db, q :: qs => serveAll decode (setupAPIs decode db q).1 qs

/-! ## Derived notions used in the statements -/

/-- The row `INSERT` stores for a user. -/
def rowOf (v : User) : Row := ⟨v.ID, some v.Username, some v.Password⟩

/-- Inv collects what holds of every table the handlers can produce from the empty
one: distinct ids, distinct usernames, no NULL column, and a counter that bounds
every id present. -/
structure Inv (db : DB) : Prop where
  ids : db.rows.Pairwise (fun a b => a.id ≠ b.id)
  names : db.rows.Pairwise (fun a b => a.username ≠ b.username)
  noNull : ∀ r ∈ db.rows, ∃ v, r = rowOf v
  bound : ∀ r ∈ db.rows, r.id ≤ db.seq

/-- The create and delete requests. -/
def isCreateOrDelete : Req → Bool
  | .create _ => true
  | .delete _ => true
  | _ => false

/-- The decimal digits of a natural number, most significant first. -/
def natText (n : Nat) : List Char :=
  if n = 0 then ['0'] else (Nat.digits 10 n).reverse.map (fun d => Char.ofNat (48 + d))

/-- The text `fmt.Sprintf("%d", id)` that the update and delete buttons put after
`/user/`. -/
def intText (i : Int) : String :=
  ⟨if i < 0 then '-' :: natText i.natAbs else natText i.natAbs⟩

/-! ## Basic facts -/

theorem initDB_fresh : initDB none = emptyDB := rfl

theorem initDB_existing (db : DB) : initDB (some db) = db := rfl

theorem pathTail_user (seg : String) : pathTail ("/user/" ++ seg) = seg := by
  cases seg; rfl

theorem find?_username_none {rows : List Row} {u : String}
    (h : ∀ r ∈ rows, r.username ≠ some u) :
    rows.find? (fun r => r.username == some u) = none := by
  rw [List.find?_eq_none]
  intro r hr
  simpa using h r hr

theorem any_username_false {rows : List Row} {u : String}
    (h : ∀ r ∈ rows, r.username ≠ some u) :
    rows.any (fun r => r.username == some u) = false := by
  rw [List.any_eq_false]
  intro r hr
  simpa using h r hr

theorem any_username_true {rows : List Row} {u : String}
    (h : ∃ r ∈ rows, r.username = some u) :
    rows.any (fun r => r.username == some u) = true := by
  rw [List.any_eq_true]
  obtain ⟨r, hr, hu⟩ := h
  exact ⟨r, hr, by simp [hu]⟩

theorem execInsert_fresh {db : DB} {u : String} (p : String)
    (h : ∀ r ∈ db.rows, r.username ≠ some u) :
    execInsert db u p =
      .ok (⟨db.rows ++ [⟨newRowid db, some u, some p⟩], newRowid db⟩, newRowid db) := by
  simp [execInsert, any_username_false h]

theorem execInsert_taken {db : DB} {u : String} (p : String)
    (h : ∃ r ∈ db.rows, r.username = some u) :
    execInsert db u p = .error errUnique := by
  simp [execInsert, any_username_true h]

theorem execInsert_cases (db : DB) (u p : String) :
    ((∃ r ∈ db.rows, r.username = some u) ∧ execInsert db u p = .error errUnique) ∨
    ((∀ r ∈ db.rows, r.username ≠ some u) ∧ execInsert db u p =
      .ok (⟨db.rows ++ [⟨newRowid db, some u, some p⟩], newRowid db⟩, newRowid db)) := by
  by_cases h : ∃ r ∈ db.rows, r.username = some u
  · exact Or.inl ⟨h, execInsert_taken p h⟩
  · right
    have h' : ∀ r ∈ db.rows, r.username ≠ some u := by
      intro r hr hu; exact h ⟨r, hr, hu⟩
    exact ⟨h', execInsert_fresh p h'⟩

theorem queryPassword_after_insert {rows : List Row} {u : String} (p : String) (id seq : Int)
    (h : ∀ r ∈ rows, r.username ≠ some u) :
    queryPassword ⟨rows ++ [⟨id, some u, some p⟩], seq⟩ u = .ok p := by
  simp [queryPassword, List.find?_append, find?_username_none h]

/-! ## Creating, then authenticating -/

/-- C1: when `createUser` succeeds on a payload with username `u` and password `p`,
`Authenticate u p` is true in the resulting store and `Authenticate u q` is false
for every other password `q`. -/
theorem createUser_then_Authenticate (decode : String → Except String User) (db : DB)
    (r : Request) (i : Int) (u p q : String)
    (hdec : decode r.body = .ok ⟨i, u, p⟩) (hq : q ≠ p)
    (hok : (createUser decode db r).2.status = StatusOK) :
    (Authenticate (createUser decode db r).1 u p).2 = true ∧
    (Authenticate (createUser decode db r).1 u q).2 = false := by
  rcases execInsert_cases db u p with ⟨_, he⟩ | ⟨hfresh, he⟩
  · simp [createUser, hdec, he, httpError, StatusOK, StatusInternalServerError] at hok
  · simp [createUser, hdec, he, Authenticate, queryPassword_after_insert p _ _ hfresh, hq]

theorem createUser_then_Authenticate_witness :
    (Authenticate (createUser (fun _ => .ok ⟨7, "alice", "secret"⟩) emptyDB ⟨"/user", ""⟩).1
      "alice" "secret").2 = true ∧
    (Authenticate (createUser (fun _ => .ok ⟨7, "alice", "secret"⟩) emptyDB ⟨"/user", ""⟩).1
      "alice" "wrong").2 = false :=
  createUser_then_Authenticate (fun _ => .ok ⟨7, "alice", "secret"⟩) emptyDB ⟨"/user", ""⟩
    7 "alice" "secret" "wrong" rfl (by decide) (by decide)

/-! ## Authentication -/

theorem username_unique {db : DB} (hc : db.Constraints) {a b : Row} {u : String}
    (ha : a ∈ db.rows) (hb : b ∈ db.rows)
    (hau : a.username = some u) (hbu : b.username = some u) : a = b := by
  by_contra hne
  have hsymm : Symmetric (fun a b : Row => ¬ (a.username.isSome ∧ a.username = b.username)) := by
    intro x y hxy hyx
    apply hxy
    refine ⟨?_, hyx.2.symm⟩
    rw [← hyx.2]; exact hyx.1
  have := hc.2.forall hsymm ha hb hne
  exact this ⟨by simp [hau], by rw [hau, hbu]⟩

/-- C2: in a store satisfying the table's constraints, `Authenticate u p` is true
exactly when some record has username `u` and stored password `p`; every failed
lookup, in particular the absence of a record named `u`, gives false; and the
store is returned unchanged. -/
theorem Authenticate_iff (db : DB) (hc : db.Constraints) (u p : String) :
    ((Authenticate db u p).2 = true ↔
      ∃ r ∈ db.rows, r.username = some u ∧ r.password = some p) ∧
    (∀ e, queryPassword db u = .error e → (Authenticate db u p).2 = false) ∧
    ((∀ r ∈ db.rows, r.username ≠ some u) →
      queryPassword db u = .error errNoRows ∧ (Authenticate db u p).2 = false) ∧
    (Authenticate db u p).1 = db := by
  refine ⟨?_, ?_, ?_, ?_⟩
  · cases hf : db.rows.find? (fun r => r.username == some u) with
    | none =>
      have hnone := List.find?_eq_none.mp hf
      simp only [Authenticate, queryPassword, hf]
      constructor
      · intro h; cases h
      · rintro ⟨r, hr, hu, _⟩
        have := hnone r hr
        simp [hu] at this
    | some r0 =>
      have hmem : r0 ∈ db.rows := List.mem_of_find?_eq_some hf
      have hu0 : r0.username = some u := by
        have := List.find?_some hf
        simpa using this
      cases hp0 : r0.password with
      | none =>
        simp only [Authenticate, queryPassword, hf, hp0]
        constructor
        · intro h; cases h
        · rintro ⟨r, hr, hu, hp⟩
          have : r = r0 := username_unique hc hr hmem hu hu0
          subst this
          rw [hp0] at hp; cases hp
      | some pw =>
        simp only [Authenticate, queryPassword, hf, hp0]
        constructor
        · intro h
          have hpw : p = pw := by simpa using h
          exact ⟨r0, hmem, hu0, by rw [hp0, hpw]⟩
        · rintro ⟨r, hr, hu, hp⟩
          have : r = r0 := username_unique hc hr hmem hu hu0
          subst this
          rw [hp0] at hp
          simp only [Option.some.injEq] at hp
          simp [hp]
  · intro e he
    simp [Authenticate, he]
  · intro h
    have hq : queryPassword db u = .error errNoRows := by
      simp [queryPassword, find?_username_none h]
    exact ⟨hq, by simp [Authenticate, hq]⟩
  · unfold Authenticate
    split <;> rfl

theorem Authenticate_iff_witness :
    ((Authenticate ⟨[⟨1, some "alice", some "secret"⟩, ⟨2, some "bob", none⟩], 2⟩
        "alice" "secret").2 = true ↔
      ∃ r ∈ [(⟨1, some "alice", some "secret"⟩ : Row), ⟨2, some "bob", none⟩],
        r.username = some "alice" ∧ r.password = some "secret") ∧
    (Authenticate ⟨[⟨1, some "alice", some "secret"⟩, ⟨2, some "bob", none⟩], 2⟩
        "alice" "secret").2 = true :=
  ⟨(Authenticate_iff ⟨[⟨1, some "alice", some "secret"⟩, ⟨2, some "bob", none⟩], 2⟩
      (by decide) "alice" "secret").1, by decide⟩

/-! ## Creating a record -/

/-- C4: when the store already holds a record with the payload's username (the
empty string included), `createUser` answers 500 with the storage error as its
text, returns no record and leaves the store unchanged. -/
theorem createUser_duplicate (decode : String → Except String User) (db : DB)
    (r : Request) (usr : User) (hdec : decode r.body = .ok usr)
    (hdup : ∃ row ∈ db.rows, row.username = some usr.Username) :
    execInsert db usr.Username usr.Password = .error errUnique ∧
    createUser decode db r = (db, ⟨StatusInternalServerError, .text errUnique⟩) := by
  have he := execInsert_taken usr.Password hdup
  exact ⟨he, by simp [createUser, hdec, he, httpError]⟩

theorem createUser_duplicate_witness :
    createUser (fun _ => .ok ⟨0, "", "pw"⟩) ⟨[⟨3, some "", some "old"⟩], 3⟩ ⟨"/user", "x"⟩ =
      (⟨[⟨3, some "", some "old"⟩], 3⟩, ⟨StatusInternalServerError, .text errUnique⟩) :=
  (createUser_duplicate (fun _ => .ok ⟨0, "", "pw"⟩) ⟨[⟨3, some "", some "old"⟩], 3⟩
    ⟨"/user", "x"⟩ ⟨0, "", "pw"⟩ rfl ⟨⟨3, some "", some "old"⟩, by simp, rfl⟩).2
/-! ## Listing -/

theorem encodeUser_injective : Function.Injective encodeUser := by
  intro a b h
  cases a; cases b
  simp only [encodeUser, Json.obj.injEq, List.cons.injEq, Prod.mk.injEq, Json.num.injEq,
    Json.str.injEq, true_and, and_true] at h
  obtain ⟨h1, h2, h3⟩ := h
  subst h1 h2 h3
  rfl

theorem encodeUsers_injective : Function.Injective encodeUsers := by
  intro a b h
  cases a <;> cases b <;> simp only [encodeUsers, Json.arr.injEq] at h
  · rfl
  · cases h
  · cases h
  · rw [List.map_injective_iff.mpr encodeUser_injective h]

theorem sliceElems_goAppend {α : Type} (s : Option (List α)) (x : α) :
    sliceElems (goAppend s x) = sliceElems s ++ [x] := by
  cases s <;> simp [sliceElems, goAppend]

/-- The users a successful scan adds to the slice are the scans of the rows, in
order. -/
theorem scanRows_ok {rows : List Row} {acc users : Option (List User)}
    (h : scanRows rows acc = .ok users) :
    ∃ us, List.Forall₂ (fun r v => scanUser r = .ok v) rows us ∧
      sliceElems users = sliceElems acc ++ us ∧ (rows = [] → users = acc) ∧
      (rows ≠ [] → users.isSome) := by
  induction rows generalizing acc with
  | nil =>
    simp only [scanRows, Except.ok.injEq] at h
    subst h
    exact ⟨[], List.Forall₂.nil, by simp, fun _ => rfl, fun h => absurd rfl h⟩
  | cons r rest ih =>
    simp only [scanRows] at h
    cases hs : scanUser r with
    | error e => rw [hs] at h; cases h
    | ok v =>
      rw [hs] at h
      obtain ⟨us, hf, hel, hnil, hne⟩ := ih h
      refine ⟨v :: us, List.Forall₂.cons hs hf, ?_, ?_, ?_⟩
      · rw [hel, sliceElems_goAppend]; simp
      · intro h; cases h
      · intro _
        by_cases hr : rest = []
        · rw [hnil hr]; cases acc <;> rfl
        · exact hne hr

theorem scanUser_ok {r : Row} {v : User} (h : scanUser r = .ok v) :
    v.ID = r.id ∧ r.username = some v.Username ∧ r.password = some v.Password := by
  unfold scanUser at h
  split at h
  · cases h
  · cases h
  · rename_i u p hu hp
    simp only [Except.ok.injEq] at h
    subst h
    exact ⟨rfl, hu, hp⟩

/-- What a 200 answer of `getUsers` lists: one user per row, scanned from it. -/
theorem getUsers_ok {db : DB} {r : Request} {users : Option (List User)}
    (h : (getUsers db r).2 = ⟨StatusOK, .json (encodeUsers users)⟩) :
    List.Forall₂ (fun row v => scanUser row = .ok v) db.rows (sliceElems users) := by
  simp only [getUsers, queryUsers] at h
  split at h
  · simp [httpError, StatusOK, StatusInternalServerError] at h
  · rename_i us hs
    simp only [Response.mk.injEq, Body.json.injEq, true_and] at h
    have := encodeUsers_injective h
    subst this
    obtain ⟨l, hf, hel, _, _⟩ := scanRows_ok hs
    have hl : sliceElems us = l := by rw [hel]; rfl
    rw [hl]; exact hf

theorem getUsers_store (db : DB) (r : Request) : (getUsers db r).1 = db := by
  simp only [getUsers, queryUsers]; split <;> rfl

/-- A 200 answer of `getUsers` on a store with at least one record is a JSON array
with one object per record. -/
theorem getUsers_nonempty_array {db : DB} {r : Request} (hne : db.rows ≠ [])
    (hok : (getUsers db r).2.status = StatusOK) :
    ∃ us, (getUsers db r).2.body = .json (.arr (us.map encodeUser)) ∧
      List.Forall₂ (fun row v => scanUser row = .ok v) db.rows us := by
  simp only [getUsers, queryUsers] at hok ⊢
  split at hok
  · simp [httpError, StatusOK, StatusInternalServerError] at hok
  · rename_i users hs
    obtain ⟨l, hf, hel, _, hsome⟩ := scanRows_ok hs
    have hl : sliceElems users = l := by rw [hel]; rfl
    cases users with
    | none => simpa using hsome hne
    | some us =>
      refine ⟨us, ?_, ?_⟩
      · simp [hs, encodeUsers]
      · have : us = l := hl
        rw [this]; exact hf

/-- C9: on the store with no records `getUsers` answers 200 with the JSON value
`null` (the encoding of the nil slice it never appended to), which is not the
empty array. -/
theorem getUsers_emptyDB_null :
    getUsers emptyDB ⟨"/users", ""⟩ = (emptyDB, ⟨StatusOK, .json .null⟩) ∧
    Json.null ≠ Json.arr [] :=
  ⟨rfl, by simp⟩

/-! ## Updating and deleting -/

theorem updateUser_ok (decode : String → Except String User) (db : DB) (seg body : String)
    {id : Int} {usr : User} (hid : Atoi seg = .ok id) (hdec : decode body = .ok usr) :
    updateUser decode db ⟨"/user/" ++ seg, body⟩ =
      (⟨db.rows.map (fun r => if r.id = id then { r with password := some usr.Password } else r),
        db.seq⟩, ⟨StatusOK, .empty⟩) := by
  simp [updateUser, pathTail_user, hid, hdec, execUpdate]

theorem deleteUser_ok (db : DB) (seg body : String) {id : Int} (hid : Atoi seg = .ok id) :
    deleteUser db ⟨"/user/" ++ seg, body⟩ =
      (⟨db.rows.filter (fun r => r.id ≠ id), db.seq⟩, ⟨StatusOK, .empty⟩) := by
  simp [deleteUser, pathTail_user, hid, execDelete]

theorem map_update_absent {rows : List Row} {id : Int} (p : String)
    (h : ∀ r ∈ rows, r.id ≠ id) :
    rows.map (fun r => if r.id = id then { r with password := some p } else r) = rows := by
  induction rows with
  | nil => rfl
  | cons r rest ih =>
    have hr : r.id ≠ id := h r (List.mem_cons_self _ _)
    simp only [List.map_cons, if_neg hr]
    rw [ih (fun x hx => h x (List.mem_cons_of_mem _ hx))]

theorem forall₂_map_update (rows : List Row) (id : Int) (p : String) :
    List.Forall₂ (fun old new => new.id = old.id ∧ new.username = old.username ∧
        (old.id = id → new.password = some p) ∧ (old.id ≠ id → new = old))
      rows (rows.map (fun r => if r.id = id then { r with password := some p } else r)) := by
  induction rows with
  | nil => exact List.Forall₂.nil
  | cons r rest ih =>
    refine List.Forall₂.cons ?_ ih
    by_cases hr : r.id = id
    · simp [hr]
    · simp [hr]

/-- On a path whose segment `Atoi` reads as `id`, with a payload that decodes,
`updateUser` answers 200; record by record the new table keeps id and username,
sets the password to the payload's where the id is `id`, and keeps every other
record as it is; no record is added or removed, and a table without that id is
left unchanged. -/
theorem updateUser_of_Atoi (decode : String → Except String User) (db : DB)
    (seg body : String) (id : Int) (usr : User)
    (hid : Atoi seg = .ok id) (hdec : decode body = .ok usr) :
    (updateUser decode db ⟨"/user/" ++ seg, body⟩).2 = ⟨StatusOK, .empty⟩ ∧
    List.Forall₂ (fun old new => new.id = old.id ∧ new.username = old.username ∧
        (old.id = id → new.password = some usr.Password) ∧ (old.id ≠ id → new = old))
      db.rows (updateUser decode db ⟨"/user/" ++ seg, body⟩).1.rows ∧
    (updateUser decode db ⟨"/user/" ++ seg, body⟩).1.rows.length = db.rows.length ∧
    (updateUser decode db ⟨"/user/" ++ seg, body⟩).1.seq = db.seq ∧
    ((∀ r ∈ db.rows, r.id ≠ id) → (updateUser decode db ⟨"/user/" ++ seg, body⟩).1 = db) := by
  rw [updateUser_ok decode db seg body hid hdec]
  refine ⟨rfl, forall₂_map_update db.rows id usr.Password, by simp, rfl, ?_⟩
  intro h
  simp only [map_update_absent usr.Password h]

theorem forall₂_exists_left {α β : Type} {R : α → β → Prop} {l₁ : List α} {l₂ : List β}
    (h : List.Forall₂ R l₁ l₂) {b : β} (hb : b ∈ l₂) : ∃ a ∈ l₁, R a b := by
  induction h with
  | nil => cases hb
  | cons hab _ ih =>
    rcases List.mem_cons.mp hb with rfl | hb
    · exact ⟨_, List.mem_cons_self _ _, hab⟩
    · obtain ⟨a, ha, hr⟩ := ih hb
      exact ⟨a, List.mem_cons_of_mem _ ha, hr⟩

theorem forall₂_exists_right {α β : Type} {R : α → β → Prop} {l₁ : List α} {l₂ : List β}
    (h : List.Forall₂ R l₁ l₂) {a : α} (ha : a ∈ l₁) : ∃ b ∈ l₂, R a b := by
  induction h with
  | nil => cases ha
  | cons hab _ ih =>
    rcases List.mem_cons.mp ha with rfl | ha
    · exact ⟨_, List.mem_cons_self _ _, hab⟩
    · obtain ⟨b, hb, hr⟩ := ih ha
      exact ⟨b, List.mem_cons_of_mem _ hb, hr⟩

/-- On a path whose segment `Atoi` reads as `id`, `deleteUser` answers 200;
afterwards no record has that id, neither in the table nor in a following list,
every record with another id is kept as often as before, and both an update (with
a payload that decodes) and a second delete on the same path answer 200 and leave
the store as it is. -/
theorem deleteUser_of_Atoi (decode : String → Except String User) (db : DB)
    (seg body body' : String) (id : Int) (usr : User) (q : Request)
    (hid : Atoi seg = .ok id) (hdec : decode body = .ok usr) :
    (deleteUser db ⟨"/user/" ++ seg, body'⟩).2 = ⟨StatusOK, .empty⟩ ∧
    (∀ r ∈ (deleteUser db ⟨"/user/" ++ seg, body'⟩).1.rows, r.id ≠ id) ∧
    (∀ users, (getUsers (deleteUser db ⟨"/user/" ++ seg, body'⟩).1 q).2 =
        ⟨StatusOK, .json (encodeUsers users)⟩ → ∀ v ∈ sliceElems users, v.ID ≠ id) ∧
    (∀ r, r.id ≠ id →
      (deleteUser db ⟨"/user/" ++ seg, body'⟩).1.rows.count r = db.rows.count r) ∧
    (deleteUser db ⟨"/user/" ++ seg, body'⟩).1.seq = db.seq ∧
    updateUser decode (deleteUser db ⟨"/user/" ++ seg, body'⟩).1 ⟨"/user/" ++ seg, body⟩ =
      ((deleteUser db ⟨"/user/" ++ seg, body'⟩).1, ⟨StatusOK, .empty⟩) ∧
    deleteUser (deleteUser db ⟨"/user/" ++ seg, body'⟩).1 ⟨"/user/" ++ seg, body'⟩ =
      ((deleteUser db ⟨"/user/" ++ seg, body'⟩).1, ⟨StatusOK, .empty⟩) := by
  have hgone : ∀ r ∈ db.rows.filter (fun r => r.id ≠ id), r.id ≠ id := by
    intro r hr
    simpa using (List.mem_filter.mp hr).2
  rw [deleteUser_ok db seg body' hid]
  refine ⟨rfl, hgone, ?_, ?_, rfl, ?_, ?_⟩
  · intro users hget v hv
    have hf := getUsers_ok hget
    obtain ⟨row, hrow, hscan⟩ := forall₂_exists_left hf hv
    rw [(scanUser_ok hscan).1]
    exact hgone row hrow
  · intro r hr
    rw [List.count_filter]
    simpa using hr
  · rw [updateUser_ok decode _ seg body hid hdec]
    simp only [map_update_absent usr.Password hgone]
  · rw [deleteUser_ok _ seg body' hid]
    simp

/-! ## What `Atoi` accepts -/

theorem foldl_digits_ge (ds : List Char) (acc : Nat) :
    acc ≤ ds.foldl (fun a c => a * 10 + (c.toNat - '0'.toNat)) acc := by
  induction ds generalizing acc with
  | nil => exact le_refl _
  | cons c cs ih =>
    rw [List.foldl_cons]
    exact le_trans (by omega) (ih _)

theorem parseUint_ok_iff (ds : List Char) (acc m : Nat) :
    parseUint ds acc = .ok m ↔
      ds.all Char.isDigit = true ∧
      ds.foldl (fun a c => a * 10 + (c.toNat - '0'.toNat)) acc = m ∧
      (ds = [] ∨ m ≤ maxUint64) := by
  induction ds generalizing acc with
  | nil => simp [parseUint]
  | cons c cs ih =>
    by_cases hc : c.isDigit = true
    · by_cases hov : acc * 10 + (c.toNat - '0'.toNat) > maxUint64
      · simp only [parseUint, hc, hov, if_true, reduceCtorEq, List.all_cons, Bool.true_and,
          List.foldl_cons, false_or, false_iff, not_and, not_le]
        intro _ hm
        have := foldl_digits_ge cs (acc * 10 + (c.toNat - '0'.toNat))
        omega
      · simp only [parseUint, hc, hov, if_true, if_false, ih, List.all_cons, Bool.true_and,
          List.foldl_cons, reduceCtorEq, false_or]
        constructor
        · rintro ⟨h1, h2, h3⟩
          refine ⟨h1, h2, ?_⟩
          rcases h3 with rfl | h3
          · simp only [List.foldl_nil] at h2
            omega
          · exact h3
        · rintro ⟨h1, h2, h3⟩
          exact ⟨h1, h2, Or.inr h3⟩
    · simp [parseUint, hc]

theorem atoiDigits_ok_iff (neg : Bool) (ds : List Char) (n : Int) :
    atoiDigits neg ds = .ok n ↔
      ds ≠ [] ∧ ds.all Char.isDigit = true ∧
      (if neg then -(digitsValue ds : Int) else (digitsValue ds : Int)) = n ∧
      minInt ≤ n ∧ n ≤ maxInt := by
  cases ds with
  | nil => simp [atoiDigits]
  | cons c cs =>
    simp only [atoiDigits, ne_eq, reduceCtorEq, not_false_eq_true, true_and]
    have hv : List.foldl (fun a c => a * 10 + (c.toNat - '0'.toNat)) 0 (c :: cs)
        = digitsValue (c :: cs) := rfl
    cases hp : parseUint (c :: cs) 0 with
    | error e =>
      simp only [reduceCtorEq, false_iff]
      rintro ⟨hall, hval, hlo, hhi⟩
      have hok := (parseUint_ok_iff (c :: cs) 0 (digitsValue (c :: cs))).mpr
        ⟨hall, hv, Or.inr (by
          cases neg
          · simp only [Bool.false_eq_true, if_false] at hval
            simp only [maxInt, maxUint64] at hhi ⊢
            omega
          · simp only [if_true] at hval
            simp only [minInt, maxUint64] at hlo ⊢
            omega)⟩
      rw [hp] at hok
      cases hok
    | ok m =>
      obtain ⟨hall, hm, _⟩ := (parseUint_ok_iff (c :: cs) 0 m).mp hp
      rw [hv] at hm
      rw [hm]
      simp only [hall, true_and]
      cases neg
      · simp only [Bool.false_eq_true, if_false]
        by_cases hr : (m : Int) > maxInt
        · simp only [hr, if_true, reduceCtorEq, false_iff]
          rintro ⟨rfl, _, h⟩
          omega
        · simp only [hr, if_false, Except.ok.injEq]
          constructor
          · rintro rfl
            refine ⟨rfl, ?_, by omega⟩
            simp only [minInt]; omega
          · rintro ⟨h, _⟩; exact h
      · simp only [if_true]
        by_cases hr : (m : Int) > maxInt + 1
        · simp only [hr, if_true, reduceCtorEq, false_iff]
          rintro ⟨rfl, h, _⟩
          simp only [minInt, maxInt] at h hr
          omega
        · simp only [hr, if_false, Except.ok.injEq]
          constructor
          · rintro rfl
            refine ⟨rfl, ?_, ?_⟩
            · simp only [minInt, maxInt] at hr ⊢; omega
            · simp only [maxInt]; omega
          · rintro ⟨h, _⟩; exact h

/-- The texts `Atoi` accepts are the decimal integers within the 64-bit range,
and it returns the integer they denote. -/
theorem Atoi_ok_iff (s : String) (n : Int) :
    Atoi s = .ok n ↔ isDecimalInt64 s = true ∧ decimalValue s = n := by
  unfold Atoi isDecimalInt64 isDecimalInteger decimalValue
  cases hs : s.data with
  | nil => simp
  | cons c cs =>
    simp only
    by_cases h1 : c = '-'
    · subst h1
      simp only [if_true, true_or, atoiDigits_ok_iff]
      constructor
      · rintro ⟨h1, h2, h3, h4, h5⟩
        subst h3
        simp [h1, h2, h4, h5]
      · intro h
        simp only [Bool.and_eq_true, Bool.not_eq_true', List.isEmpty_eq_false,
          decide_eq_true_eq] at h
        obtain ⟨⟨⟨⟨h1, h2⟩, h4⟩, h5⟩, h3⟩ := h
        subst h3
        exact ⟨h1, h2, rfl, h4, h5⟩
    · by_cases h2 : c = '+'
      · subst h2
        simp only [if_true, or_true, atoiDigits_ok_iff, h1, if_false]
        constructor
        · rintro ⟨h1, h2, h3, h4, h5⟩
          simp only [Bool.false_eq_true, if_false] at h3
          subst h3
          simp [h1, h2, h4, h5]
        · intro h
          simp only [Bool.and_eq_true, Bool.not_eq_true', List.isEmpty_eq_false,
            decide_eq_true_eq] at h
          obtain ⟨⟨⟨⟨h1, h2⟩, h4⟩, h5⟩, h3⟩ := h
          subst h3
          exact ⟨h1, h2, by simp, h4, h5⟩
      · simp only [h1, h2, if_false, or_self, atoiDigits_ok_iff]
        constructor
        · rintro ⟨_, h2, h3, h4, h5⟩
          simp only [Bool.false_eq_true, if_false] at h3
          subst h3
          simp [h2, h4, h5]
        · intro h
          simp only [Bool.and_eq_true, decide_eq_true_eq] at h
          obtain ⟨⟨⟨h2, h4⟩, h5⟩, h3⟩ := h
          subst h3
          exact ⟨by simp, h2, by simp, h4, h5⟩

theorem Atoi_error_iff (s : String) :
    (∃ e, Atoi s = .error e) ↔ isDecimalInt64 s = false := by
  constructor
  · rintro ⟨e, he⟩
    by_contra hne
    have hok := (Atoi_ok_iff s (decimalValue s)).mpr ⟨by simpa using hne, rfl⟩
    rw [he] at hok; cases hok
  · intro h
    cases ha : Atoi s with
    | error e => exact ⟨e, rfl⟩
    | ok n =>
      have := ((Atoi_ok_iff s n).mp ha).1
      rw [h] at this; cases this

/-! ## Malformed requests -/

theorem createUser_400_iff (decode : String → Except String User) (db : DB) (r : Request) :
    (createUser decode db r).2.status = StatusBadRequest ↔ ∃ e, decode r.body = .error e := by
  unfold createUser
  cases hd : decode r.body with
  | error e => simp [httpError]
  | ok usr =>
    rcases execInsert_cases db usr.Username usr.Password with ⟨_, he⟩ | ⟨_, he⟩ <;>
      simp [he, httpError, StatusBadRequest, StatusInternalServerError, StatusOK]

theorem updateUser_400_iff (decode : String → Except String User) (db : DB)
    (seg body : String) :
    (updateUser decode db ⟨"/user/" ++ seg, body⟩).2.status = StatusBadRequest ↔
      isDecimalInt64 seg = false ∨ ∃ e, decode body = .error e := by
  unfold updateUser
  simp only [pathTail_user]
  cases ha : Atoi seg with
  | error e =>
    have := (Atoi_error_iff seg).mp ⟨e, ha⟩
    simp [httpError, this]
  | ok id =>
    have h64 := ((Atoi_ok_iff seg id).mp ha).1
    cases hd : decode body with
    | error e => simp [httpError]
    | ok usr => simp [execUpdate, h64, StatusBadRequest, StatusOK]

theorem deleteUser_400_iff (db : DB) (seg body : String) :
    (deleteUser db ⟨"/user/" ++ seg, body⟩).2.status = StatusBadRequest ↔
      isDecimalInt64 seg = false := by
  unfold deleteUser
  simp only [pathTail_user]
  cases ha : Atoi seg with
  | error e =>
    have := (Atoi_error_iff seg).mp ⟨e, ha⟩
    simp [httpError, this]
  | ok id =>
    have h64 := ((Atoi_ok_iff seg id).mp ha).1
    simp [execDelete, h64, StatusBadRequest, StatusOK]

theorem createUser_400_store (decode : String → Except String User) (db : DB) (r : Request)
    (h : (createUser decode db r).2.status = StatusBadRequest) :
    (createUser decode db r).1 = db := by
  obtain ⟨e, he⟩ := (createUser_400_iff decode db r).mp h
  simp [createUser, he]

theorem updateUser_400_store (decode : String → Except String User) (db : DB)
    (seg body : String)
    (h : (updateUser decode db ⟨"/user/" ++ seg, body⟩).2.status = StatusBadRequest) :
    (updateUser decode db ⟨"/user/" ++ seg, body⟩).1 = db := by
  revert h
  unfold updateUser
  simp only [pathTail_user]
  cases Atoi seg with
  | error e => simp
  | ok id =>
    cases decode body with
    | error e => simp
    | ok usr => simp [execUpdate, StatusBadRequest, StatusOK]

theorem deleteUser_400_store (db : DB) (seg body : String)
    (h : (deleteUser db ⟨"/user/" ++ seg, body⟩).2.status = StatusBadRequest) :
    (deleteUser db ⟨"/user/" ++ seg, body⟩).1 = db := by
  revert h
  unfold deleteUser
  simp only [pathTail_user]
  cases Atoi seg with
  | error e => simp
  | ok id => simp [execDelete, StatusBadRequest, StatusOK]

theorem getUsers_not_400 (db : DB) (r : Request) :
    (getUsers db r).2.status ≠ StatusBadRequest := by
  simp only [getUsers, queryUsers]
  split <;> simp [httpError, StatusBadRequest, StatusInternalServerError, StatusOK]

/-- C8, as the code has it: `createUser` answers 400 exactly when the body does not
decode; `updateUser` exactly when the body does not decode or the path segment is
not a decimal integer within the 64-bit `int` range; `deleteUser` exactly when the
segment is not such an integer; `getUsers` never; a 400 leaves the store unchanged;
and a segment that is not a decimal integer at all is among those rejected. -/
theorem status400_iff_malformed (decode : String → Except String User) (db : DB)
    (path seg body : String) :
    ((createUser decode db ⟨path, body⟩).2.status = StatusBadRequest ↔
      ∃ e, decode body = .error e) ∧
    ((updateUser decode db ⟨"/user/" ++ seg, body⟩).2.status = StatusBadRequest ↔
      isDecimalInt64 seg = false ∨ ∃ e, decode body = .error e) ∧
    ((deleteUser db ⟨"/user/" ++ seg, body⟩).2.status = StatusBadRequest ↔
      isDecimalInt64 seg = false) ∧
    (getUsers db ⟨path, body⟩).2.status ≠ StatusBadRequest ∧
    ((createUser decode db ⟨path, body⟩).2.status = StatusBadRequest →
      (createUser decode db ⟨path, body⟩).1 = db) ∧
    ((updateUser decode db ⟨"/user/" ++ seg, body⟩).2.status = StatusBadRequest →
      (updateUser decode db ⟨"/user/" ++ seg, body⟩).1 = db) ∧
    ((deleteUser db ⟨"/user/" ++ seg, body⟩).2.status = StatusBadRequest →
      (deleteUser db ⟨"/user/" ++ seg, body⟩).1 = db) ∧
    (isDecimalInteger seg = false → isDecimalInt64 seg = false) :=
  ⟨createUser_400_iff decode db ⟨path, body⟩, updateUser_400_iff decode db seg body,
   deleteUser_400_iff db seg body, getUsers_not_400 db ⟨path, body⟩,
   createUser_400_store decode db ⟨path, body⟩, updateUser_400_store decode db seg body,
   deleteUser_400_store db seg body, fun h => by simp [isDecimalInt64, h]⟩

theorem status400_iff_malformed_witness :
    isDecimalInt64 "" = false ∧ isDecimalInt64 "abc" = false ∧
    isDecimalInt64 "9223372036854775808" = false ∧ isDecimalInt64 "12/x" = false ∧
    (updateUser (fun _ => .ok ⟨0, "", "pw"⟩) ⟨[⟨12, some "alice", some "a"⟩], 12⟩
      ⟨"/user/" ++ "12/x", "x"⟩).2.status = StatusBadRequest ∧
    (updateUser (fun _ => .ok ⟨0, "", "pw"⟩) ⟨[⟨12, some "alice", some "a"⟩], 12⟩
      ⟨"/user/" ++ "12/x", "x"⟩).1 = ⟨[⟨12, some "alice", some "a"⟩], 12⟩ :=
  have h := status400_iff_malformed (fun _ => .ok ⟨0, "", "pw"⟩)
    ⟨[⟨12, some "alice", some "a"⟩], 12⟩ "/user" "12/x" "x"
  ⟨by decide, by decide, by decide, by decide, h.2.1.mpr (Or.inl (by decide)),
   h.2.2.2.2.2.1 (h.2.1.mpr (Or.inl (by decide)))⟩

/-- C8 as stated fails: a request whose body decodes and whose path segment is the
decimal integer 9223372036854775808 is answered 400 by `updateUser` and by
`deleteUser`. -/
theorem decimal_segment_answered_400 :
    isDecimalInteger "9223372036854775808" = true ∧
    (updateUser (fun _ => .ok ⟨0, "", "pw"⟩) emptyDB
      ⟨"/user/9223372036854775808", "x"⟩).2.status = StatusBadRequest ∧
    (deleteUser emptyDB ⟨"/user/9223372036854775808", ""⟩).2.status = StatusBadRequest := by
  decide

/-! ## Stores reachable from the empty table -/

theorem newRowid_gt_seq (db : DB) : db.seq < newRowid db := by
  have : db.seq + 1 ≤ newRowid db := le_max_right _ _
  omega

theorem maxRowid_ge {rows : List Row} {r : Row} (hr : r ∈ rows) :
    ∃ m, maxRowid rows = some m ∧ r.id ≤ m := by
  induction rows with
  | nil => cases hr
  | cons a rest ih =>
    rcases List.mem_cons.mp hr with rfl | hr
    · cases hm : maxRowid rest with
      | none => exact ⟨r.id, by simp [maxRowid, hm], le_refl _⟩
      | some m => exact ⟨max r.id m, by simp [maxRowid, hm], le_max_left _ _⟩
    · obtain ⟨m, hm, hle⟩ := ih hr
      exact ⟨max a.id m, by simp [maxRowid, hm], le_trans hle (le_max_right _ _)⟩

theorem newRowid_gt_rows (db : DB) {r : Row} (hr : r ∈ db.rows) : r.id < newRowid db := by
  obtain ⟨m, hm, hle⟩ := maxRowid_ge hr
  have : m + 1 ≤ newRowid db := by
    unfold newRowid
    rw [hm]
    exact le_max_left _ _
  omega

/-- The four ways a request can leave the store. -/
theorem setupAPIs_store_cases (decode : String → Except String User) (db : DB) (q : Req) :
    (setupAPIs decode db q).1 = db ∨
    (∃ b usr, q = .create b ∧ decode b = .ok usr ∧
      (∀ r ∈ db.rows, r.username ≠ some usr.Username) ∧
      setupAPIs decode db q =
        (⟨db.rows ++ [⟨newRowid db, some usr.Username, some usr.Password⟩], newRowid db⟩,
         ⟨StatusOK, .json (encodeUser { usr with ID := newRowid db })⟩)) ∨
    (∃ seg b id usr, q = .update seg b ∧ Atoi seg = .ok id ∧ decode b = .ok usr ∧
      (setupAPIs decode db q).1 =
        ⟨db.rows.map (fun r => if r.id = id then { r with password := some usr.Password } else r),
         db.seq⟩) ∨
    (∃ seg id, q = .delete seg ∧ Atoi seg = .ok id ∧
      (setupAPIs decode db q).1 = ⟨db.rows.filter (fun r => r.id ≠ id), db.seq⟩) := by
  cases q with
  | list => exact Or.inl (getUsers_store db ⟨"/users", ""⟩)
  | create b =>
    cases hd : decode b with
    | error e => left; simp [setupAPIs, createUser, hd]
    | ok usr =>
      rcases execInsert_cases db usr.Username usr.Password with ⟨_, he⟩ | ⟨hfresh, he⟩
      · left; simp [setupAPIs, createUser, hd, he]
      · right; left
        exact ⟨b, usr, rfl, hd, hfresh, by simp [setupAPIs, createUser, hd, he]⟩
  | update seg b =>
    cases ha : Atoi seg with
    | error e => left; simp [setupAPIs, updateUser, pathTail_user, ha]
    | ok id =>
      cases hd : decode b with
      | error e => left; simp [setupAPIs, updateUser, pathTail_user, ha, hd]
      | ok usr =>
        right; right; left
        exact ⟨seg, b, id, usr, rfl, ha, hd, by simp [setupAPIs, updateUser_ok decode db seg b ha hd]⟩
  | delete seg =>
    cases ha : Atoi seg with
    | error e => left; simp [setupAPIs, deleteUser, pathTail_user, ha]
    | ok id =>
      right; right; right
      exact ⟨seg, id, rfl, ha, by simp [setupAPIs, deleteUser_ok db seg "" ha]⟩

theorem Inv_emptyDB : Inv emptyDB := by
  constructor
  · exact List.Pairwise.nil
  · exact List.Pairwise.nil
  · intro r hr; cases hr
  · intro r hr; cases hr

theorem Inv_insert {db : DB} (h : Inv db) {u : String} (p : String)
    (hfresh : ∀ r ∈ db.rows, r.username ≠ some u) :
    Inv ⟨db.rows ++ [⟨newRowid db, some u, some p⟩], newRowid db⟩ := by
  constructor
  · refine List.pairwise_append.mpr ⟨h.ids, List.pairwise_singleton _ _, ?_⟩
    intro a ha b hb
    rw [List.mem_singleton] at hb
    subst hb
    exact ne_of_lt (newRowid_gt_rows db ha)
  · refine List.pairwise_append.mpr ⟨h.names, List.pairwise_singleton _ _, ?_⟩
    intro a ha b hb
    rw [List.mem_singleton] at hb
    subst hb
    exact hfresh a ha
  · intro r hr
    rcases List.mem_append.mp hr with hr | hr
    · exact h.noNull r hr
    · rw [List.mem_singleton] at hr
      exact ⟨⟨newRowid db, u, p⟩, hr⟩
  · intro r hr
    rcases List.mem_append.mp hr with hr | hr
    · exact le_of_lt (newRowid_gt_rows db hr)
    · rw [List.mem_singleton] at hr
      subst hr
      exact le_refl _

theorem Inv_update {db : DB} (h : Inv db) (id : Int) (p : String) :
    Inv ⟨db.rows.map (fun r => if r.id = id then { r with password := some p } else r),
      db.seq⟩ := by
  have hid : ∀ r : Row, (if r.id = id then { r with password := some p } else r).id = r.id := by
    intro r; split <;> rfl
  have hname : ∀ r : Row,
      (if r.id = id then { r with password := some p } else r).username = r.username := by
    intro r; split <;> rfl
  constructor
  · refine List.pairwise_map.mpr (h.ids.imp ?_)
    intro a b hab; rw [hid a, hid b]; exact hab
  · refine List.pairwise_map.mpr (h.names.imp ?_)
    intro a b hab; rw [hname a, hname b]; exact hab
  · intro r hr
    obtain ⟨a, ha, rfl⟩ := List.mem_map.mp hr
    obtain ⟨v, rfl⟩ := h.noNull a ha
    by_cases hv : (rowOf v).id = id
    · refine ⟨⟨v.ID, v.Username, p⟩, ?_⟩
      rw [if_pos hv]; rfl
    · exact ⟨v, by rw [if_neg hv]⟩
  · intro r hr
    obtain ⟨a, ha, rfl⟩ := List.mem_map.mp hr
    rw [hid a]; exact h.bound a ha

theorem Inv_delete {db : DB} (h : Inv db) (id : Int) :
    Inv ⟨db.rows.filter (fun r => r.id ≠ id), db.seq⟩ := by
  constructor
  · exact h.ids.sublist (List.filter_sublist _)
  · exact h.names.sublist (List.filter_sublist _)
  · intro r hr; exact h.noNull r (List.mem_filter.mp hr).1
  · intro r hr; exact h.bound r (List.mem_filter.mp hr).1

theorem Inv_setupAPIs (decode : String → Except String User) {db : DB} (h : Inv db) (q : Req) :
    Inv (setupAPIs decode db q).1 := by
  rcases setupAPIs_store_cases decode db q with
    he | ⟨_, usr, _, _, hfresh, he⟩ | ⟨_, _, id, usr, _, _, _, he⟩ | ⟨_, id, _, _, he⟩
  · rw [he]; exact h
  · rw [he]; exact Inv_insert h usr.Password hfresh
  · rw [he]; exact Inv_update h id usr.Password
  · rw [he]; exact Inv_delete h id

theorem Inv_serveAll (decode : String → Except String User) {db : DB} (h : Inv db)
    (reqs : List Req) : Inv (serveAll decode db reqs) := by
  induction reqs generalizing db with
  | nil => exact h
  | cons q qs ih => exact ih (Inv_setupAPIs decode h q)

theorem Inv_same_row {db : DB} (h : Inv db) {a b : Row} (ha : a ∈ db.rows) (hb : b ∈ db.rows) :
    (b.id = a.id ↔ b = a) ∧ (b.username = a.username ↔ b = a) := by
  constructor
  · constructor
    · intro hid
      by_contra hne
      exact h.ids.forall (fun x y hxy => Ne.symm hxy) hb ha hne hid
    · rintro rfl; rfl
  · constructor
    · intro hname
      by_contra hne
      exact h.names.forall (fun x y hxy => Ne.symm hxy) hb ha hne hname
    · rintro rfl; rfl

theorem Inv_step_identity (decode : String → Except String User) {db : DB} (h : Inv db)
    (q : Req) {a b : Row} (ha : a ∈ db.rows) (hb : b ∈ (setupAPIs decode db q).1.rows) :
    b.id = a.id ↔ b.username = a.username := by
  have old : ∀ c ∈ db.rows, (c.id = a.id ↔ c.username = a.username) := by
    intro c hc
    rw [(Inv_same_row h ha hc).1, (Inv_same_row h ha hc).2]
  rcases setupAPIs_store_cases decode db q with
    he | ⟨_, usr, _, _, hfresh, he⟩ | ⟨_, _, id, usr, _, _, _, he⟩ | ⟨_, id, _, _, he⟩
  · rw [he] at hb; exact old b hb
  · rw [he] at hb
    rcases List.mem_append.mp hb with hb | hb
    · exact old b hb
    · rw [List.mem_singleton] at hb
      subst hb
      constructor
      · intro hid
        have := newRowid_gt_rows db ha
        simp only at hid
        omega
      · intro hname
        exact absurd hname.symm (hfresh a ha)
  · rw [he] at hb
    obtain ⟨c, hc, rfl⟩ := List.mem_map.mp hb
    by_cases hcid : c.id = id
    · rw [if_pos hcid]; exact old c hc
    · rw [if_neg hcid]; exact old c hc
  · rw [he] at hb
    exact old b (List.mem_filter.mp hb).1

/-- C10: in every store reached from the empty one by list, create, update and
delete requests no two records share a username and no two share an id; and for
any further request, a record before it and a record after it have the same id
exactly when they have the same username, so a record that stays keeps both. -/
theorem reachable_unique_and_stable (decode : String → Except String User)
    (reqs : List Req) (q : Req) :
    (serveAll decode emptyDB reqs).rows.Pairwise (fun a b => a.username ≠ b.username) ∧
    (serveAll decode emptyDB reqs).rows.Pairwise (fun a b => a.id ≠ b.id) ∧
    (∀ a ∈ (serveAll decode emptyDB reqs).rows,
      ∀ b ∈ (setupAPIs decode (serveAll decode emptyDB reqs) q).1.rows,
        (b.id = a.id ↔ b.username = a.username)) := by
  have h := Inv_serveAll decode Inv_emptyDB reqs
  exact ⟨h.names, h.ids, fun a ha b hb => Inv_step_identity decode h q ha hb⟩

/-! ## Ids assigned by the store -/

theorem createUser_success {decode : String → Except String User} {db : DB} {r : Request}
    {v : User} (h : (createUser decode db r).2 = ⟨StatusOK, .json (encodeUser v)⟩) :
    ∃ usr, decode r.body = .ok usr ∧ (∀ row ∈ db.rows, row.username ≠ some usr.Username) ∧
      v = ⟨newRowid db, usr.Username, usr.Password⟩ ∧
      (createUser decode db r).1 = ⟨db.rows ++ [rowOf v], newRowid db⟩ := by
  unfold createUser at h ⊢
  cases hd : decode r.body with
  | error e => simp [hd, httpError, StatusOK, StatusBadRequest] at h
  | ok usr =>
    rcases execInsert_cases db usr.Username usr.Password with ⟨_, he⟩ | ⟨hfresh, he⟩
    · simp [hd, he, httpError, StatusOK, StatusInternalServerError] at h
    · simp only [hd, he, Response.mk.injEq, Body.json.injEq, true_and] at h
      have hv := encodeUser_injective h
      subst hv
      exact ⟨usr, rfl, hfresh, rfl, by simp [he, rowOf]⟩

theorem seq_le_setupAPIs (decode : String → Except String User) (db : DB) (q : Req) :
    db.seq ≤ (setupAPIs decode db q).1.seq := by
  rcases setupAPIs_store_cases decode db q with
    he | ⟨_, usr, _, _, hfresh, he⟩ | ⟨_, _, id, usr, _, _, _, he⟩ | ⟨_, id, _, _, he⟩
  · rw [he]
  · rw [he]; exact le_of_lt (newRowid_gt_seq db)
  · rw [he]
  · rw [he]

theorem seq_le_serveAll (decode : String → Except String User) (db : DB) (reqs : List Req) :
    db.seq ≤ (serveAll decode db reqs).seq := by
  induction reqs generalizing db with
  | nil => exact le_refl _
  | cons q qs ih => exact le_trans (seq_le_setupAPIs decode db q) (ih _)

/-- Every id handed out during a run is bounded by the counter at its end. -/
theorem assigned_le_seq (decode : String → Except String User) (db : DB) (reqs : List Req)
    {b : String} {v : User}
    (h : (Req.create b, (⟨StatusOK, .json (encodeUser v)⟩ : Response)) ∈
      exchanges decode db reqs) :
    v.ID ≤ (serveAll decode db reqs).seq := by
  induction reqs generalizing db with
  | nil => cases h
  | cons q qs ih =>
    simp only [exchanges, List.mem_cons, Prod.mk.injEq] at h
    rcases h with ⟨hq, hresp⟩ | h
    · subst hq
      obtain ⟨usr, _, _, hv, hst⟩ := createUser_success hresp.symm
      have hseq : (setupAPIs decode db (.create b)).1.seq = v.ID := by
        show (createUser decode db ⟨"/user", b⟩).1.seq = v.ID
        rw [hst, hv]
      show v.ID ≤ (serveAll decode (setupAPIs decode db (.create b)).1 qs).seq
      rw [← hseq]
      exact seq_le_serveAll decode _ qs
    · exact ih _ h

/-- C3: in a store reached from the empty one, a payload whose username no record
has is accepted: `createUser` answers 200, appends exactly one record holding the
payload's username and password, and returns that record with the id chosen by
the store, whatever id the payload carried; this id is greater than every id
returned by an earlier create, deleted since or not, and than every id present. -/
theorem createUser_fresh_username (decode : String → Except String User) (reqs : List Req)
    (r : Request) (i : Int) (u p : String)
    (hdec : decode r.body = .ok ⟨i, u, p⟩)
    (hfresh : ∀ row ∈ (serveAll decode emptyDB reqs).rows, row.username ≠ some u) :
    createUser decode (serveAll decode emptyDB reqs) r =
      (⟨(serveAll decode emptyDB reqs).rows ++
          [⟨newRowid (serveAll decode emptyDB reqs), some u, some p⟩],
        newRowid (serveAll decode emptyDB reqs)⟩,
       ⟨StatusOK, .json (encodeUser ⟨newRowid (serveAll decode emptyDB reqs), u, p⟩)⟩) ∧
    (∀ b v, (Req.create b, (⟨StatusOK, .json (encodeUser v)⟩ : Response)) ∈
        exchanges decode emptyDB reqs → v.ID < newRowid (serveAll decode emptyDB reqs)) ∧
    (∀ row ∈ (serveAll decode emptyDB reqs).rows,
      row.id < newRowid (serveAll decode emptyDB reqs)) := by
  refine ⟨?_, ?_, ?_⟩
  · simp [createUser, hdec, execInsert_fresh p hfresh]
  · intro b v hv
    exact lt_of_le_of_lt (assigned_le_seq decode emptyDB reqs hv) (newRowid_gt_seq _)
  · intro row hrow
    exact newRowid_gt_rows _ hrow

theorem createUser_fresh_username_witness :
    createUser (fun _ => .ok ⟨40, "alice", "secret"⟩)
        (serveAll (fun _ => .ok ⟨40, "alice", "secret"⟩) emptyDB [.create "x", .delete "1"])
        ⟨"/user", "x"⟩ =
      (⟨[⟨2, some "alice", some "secret"⟩], 2⟩,
       ⟨StatusOK, .json (encodeUser ⟨2, "alice", "secret"⟩)⟩) :=
  (createUser_fresh_username (fun _ => .ok ⟨40, "alice", "secret"⟩)
    [.create "x", .delete "1"] ⟨"/user", "x"⟩ 40 "alice" "secret" rfl (by decide)).1

/-! ## What a list returns after creates and deletes -/

theorem rowOf_injective : Function.Injective rowOf := by
  intro a b h
  cases a; cases b
  simp only [rowOf, Row.mk.injEq, Option.some.injEq] at h
  obtain ⟨h1, h2, h3⟩ := h
  subst h1 h2 h3
  rfl

theorem scanUser_eq_rowOf {r : Row} {v : User} (h : scanUser r = .ok v) : r = rowOf v := by
  obtain ⟨h1, h2, h3⟩ := scanUser_ok h
  cases r
  simp only at h1 h2 h3
  simp [rowOf, h1, h2, h3]

theorem forall₂_scanUser_map {rows : List Row} {us : List User}
    (h : List.Forall₂ (fun r v => scanUser r = .ok v) rows us) : rows = us.map rowOf := by
  induction h with
  | nil => rfl
  | cons hab _ ih => rw [List.map_cons, ← ih, scanUser_eq_rowOf hab]

theorem scanRows_total {rows : List Row} (h : ∀ r ∈ rows, ∃ v, r = rowOf v)
    (acc : Option (List User)) : ∃ users, scanRows rows acc = .ok users := by
  induction rows generalizing acc with
  | nil => exact ⟨acc, rfl⟩
  | cons r rest ih =>
    obtain ⟨v, rfl⟩ := h r (List.mem_cons_self _ _)
    obtain ⟨users, hu⟩ := ih (fun x hx => h x (List.mem_cons_of_mem _ hx)) (goAppend acc v)
    exact ⟨users, by simp [scanRows, scanUser, rowOf, hu]⟩

/-- On a table without NULLs `getUsers` answers 200 with exactly the rows. -/
theorem getUsers_of_Inv {db : DB} (h : Inv db) (r : Request) :
    ∃ users, getUsers db r = (db, ⟨StatusOK, .json (encodeUsers users)⟩) ∧
      db.rows = (sliceElems users).map rowOf := by
  obtain ⟨users, hs⟩ := scanRows_total h.noNull none
  obtain ⟨l, hf, hel, _, _⟩ := scanRows_ok hs
  have hl : sliceElems users = l := by rw [hel]; rfl
  refine ⟨users, by simp [getUsers, queryUsers, hs], ?_⟩
  rw [hl]; exact forall₂_scanUser_map hf

theorem exchanges_map_fst (decode : String → Except String User) (db : DB) (reqs : List Req) :
    (exchanges decode db reqs).map Prod.fst = reqs := by
  induction reqs generalizing db with
  | nil => rfl
  | cons q qs ih => simp [exchanges, ih]

/-- The response to a create request in a run is the one `createUser` gave in the
store of that moment. -/
theorem exchanges_create (decode : String → Except String User) (db : DB) (reqs : List Req)
    {b : String} {resp : Response} (h : (Req.create b, resp) ∈ exchanges decode db reqs) :
    ∃ db', resp = (createUser decode db' ⟨"/user", b⟩).2 := by
  induction reqs generalizing db with
  | nil => cases h
  | cons q qs ih =>
    simp only [exchanges, List.mem_cons, Prod.mk.injEq] at h
    rcases h with ⟨hq, hresp⟩ | h
    · subst hq; exact ⟨db, hresp⟩
    · exact ih _ h

/-- The rows after a run of creates and deletes: the rows of the start that no
request deleted, and the rows of the creates that succeeded and that no later
request deleted. -/
theorem rows_after_run (decode : String → Except String User) (db : DB) (reqs : List Req)
    (hcd : ∀ q ∈ reqs, isCreateOrDelete q = true) (row : Row) :
    row ∈ (serveAll decode db reqs).rows ↔
      (row ∈ db.rows ∧ ∀ seg, Req.delete seg ∈ reqs → Atoi seg ≠ .ok row.id) ∨
      (∃ pre post b v,
        exchanges decode db reqs =
          pre ++ (Req.create b, (⟨StatusOK, .json (encodeUser v)⟩ : Response)) :: post ∧
        row = rowOf v ∧
        ∀ e ∈ post, ∀ seg, e.1 = Req.delete seg → Atoi seg ≠ .ok v.ID) := by
  induction reqs generalizing db with
  | nil =>
    simp only [serveAll, exchanges, List.not_mem_nil, false_implies, implies_true, and_true]
    constructor
    · intro h; exact Or.inl h
    · rintro (h | ⟨pre, post, b, v, h, _⟩)
      · exact h
      · cases pre <;> cases h
  | cons q qs ih =>
    have hqs : ∀ x ∈ qs, isCreateOrDelete x = true := fun x hx => hcd x (List.mem_cons_of_mem _ hx)
    have hq := hcd q (List.mem_cons_self _ _)
    have ih' := ih (setupAPIs decode db q).1 hqs
    simp only [serveAll, exchanges]
    rw [ih']
    -- membership in the store after the first request
    have hfirst : row ∈ (setupAPIs decode db q).1.rows ↔
        (row ∈ db.rows ∧ ∀ seg, q = Req.delete seg → Atoi seg ≠ .ok row.id) ∨
        (∃ b v, q = Req.create b ∧
          (setupAPIs decode db q).2 = ⟨StatusOK, .json (encodeUser v)⟩ ∧ row = rowOf v) := by
      cases q with
      | list => cases hq
      | update seg b => cases hq
      | delete seg =>
        simp only [reduceCtorEq, false_and, exists_false, or_false, Req.delete.injEq]
        cases ha : Atoi seg with
        | error e =>
          have : (setupAPIs decode db (.delete seg)).1 = db := by
            simp [setupAPIs, deleteUser, pathTail_user, ha]
          rw [this]
          constructor
          · intro h; exact ⟨h, fun s hs => by subst hs; rw [ha]; simp⟩
          · intro h; exact h.1
        | ok id =>
          have : (setupAPIs decode db (.delete seg)).1 =
              ⟨db.rows.filter (fun r => r.id ≠ id), db.seq⟩ := by
            simp [setupAPIs, deleteUser_ok db seg "" ha]
          rw [this]
          simp only [List.mem_filter, decide_eq_true_eq]
          constructor
          · rintro ⟨h, hne⟩
            refine ⟨h, fun s hs => ?_⟩
            subst hs
            rw [ha]
            intro heq
            exact hne (Except.ok.inj heq).symm
          · rintro ⟨h, hne⟩
            refine ⟨h, fun heq => hne seg rfl ?_⟩
            rw [ha, heq]
      | create b =>
        simp only [reduceCtorEq, false_implies, implies_true, and_true, Req.create.injEq]
        show row ∈ (createUser decode db ⟨"/user", b⟩).1.rows ↔ _
        cases hd : decode b with
        | error e =>
          have h1 : createUser decode db ⟨"/user", b⟩ = (db, httpError e StatusBadRequest) := by
            simp [createUser, hd]
          simp [setupAPIs, h1, httpError, StatusBadRequest, StatusOK]
        | ok usr =>
          rcases execInsert_cases db usr.Username usr.Password with ⟨_, he⟩ | ⟨hfresh, he⟩
          · have h1 : createUser decode db ⟨"/user", b⟩ =
                (db, httpError errUnique StatusInternalServerError) := by
              simp [createUser, hd, he]
            simp [setupAPIs, h1, httpError, StatusInternalServerError, StatusOK]
          · have h1 : createUser decode db ⟨"/user", b⟩ =
                (⟨db.rows ++ [rowOf ⟨newRowid db, usr.Username, usr.Password⟩], newRowid db⟩,
                 ⟨StatusOK, .json (encodeUser ⟨newRowid db, usr.Username, usr.Password⟩)⟩) := by
              simp [createUser, hd, he, rowOf]
            simp only [setupAPIs, h1, List.mem_append, List.mem_singleton, Response.mk.injEq,
              Body.json.injEq, true_and]
            constructor
            · rintro (h | h)
              · exact Or.inl h
              · exact Or.inr ⟨b, _, rfl, rfl, h⟩
            · rintro (h | ⟨b', v, _, hv, hrow⟩)
              · exact Or.inl h
              · right
                rw [hrow, ← encodeUser_injective hv]
    have hmap := exchanges_map_fst decode (setupAPIs decode db q).1 qs
    constructor
    · rintro (⟨hrow, hnd⟩ | ⟨pre, post, b, v, hex, hrow, hnd⟩)
      · rcases hfirst.mp hrow with ⟨hold, hq1⟩ | ⟨b, v, hqc, hresp, hv⟩
        · left
          refine ⟨hold, fun seg hseg => ?_⟩
          rcases List.mem_cons.mp hseg with hs | hs
          · exact hq1 seg hs.symm
          · exact hnd seg hs
        · right
          refine ⟨[], exchanges decode (setupAPIs decode db q).1 qs, b, v, ?_, hv, ?_⟩
          · rw [hqc] at hresp ⊢
            rw [hresp]; rfl
          · intro e he seg hseg
            have : e.1 ∈ qs := by
              rw [← hmap]; exact List.mem_map_of_mem _ he
            rw [hseg] at this
            have := hnd seg this
            rwa [hv] at this
      · right
        exact ⟨(q, (setupAPIs decode db q).2) :: pre, post, b, v, by rw [hex]; rfl, hrow, hnd⟩
    · rintro (⟨hold, hnd⟩ | ⟨pre, post, b, v, hex, hrow, hnd⟩)
      · left
        refine ⟨hfirst.mpr (Or.inl ⟨hold, fun seg hs => hnd seg ?_⟩), fun seg hs => hnd seg ?_⟩
        · rw [hs]; exact List.mem_cons_self _ _
        · exact List.mem_cons_of_mem _ hs
      · cases pre with
        | nil =>
          simp only [List.nil_append, List.cons.injEq, Prod.mk.injEq] at hex
          obtain ⟨⟨hq1, hresp⟩, hpost⟩ := hex
          left
          refine ⟨hfirst.mpr (Or.inr ⟨b, v, hq1, hresp, hrow⟩), fun seg hs => ?_⟩
          rw [← hmap, hpost] at hs
          obtain ⟨e, he, hfst⟩ := List.mem_map.mp hs
          have := hnd e he seg hfst
          rwa [hrow]
        | cons p pre' =>
          simp only [List.cons_append, List.cons.injEq] at hex
          right
          exact ⟨pre', post, b, v, hex.2, hrow, hnd⟩

/-- C5: after any sequence of create and delete requests on the empty store,
`getUsers` answers 200 and leaves the store unchanged; the users it lists have no
duplicate, and a user is listed exactly when some create answered 200 with that
record and no later delete named its id; each such record carries the username
and password of the payload of its create. -/
theorem getUsers_lists_live_records (decode : String → Except String User)
    (reqs : List Req) (hcd : ∀ q ∈ reqs, isCreateOrDelete q = true) (r : Request) :
    ∃ users : Option (List User),
      getUsers (serveAll decode emptyDB reqs) r =
        (serveAll decode emptyDB reqs, ⟨StatusOK, .json (encodeUsers users)⟩) ∧
      (sliceElems users).Nodup ∧
      (∀ v, v ∈ sliceElems users ↔
        ∃ pre post b,
          exchanges decode emptyDB reqs =
            pre ++ (Req.create b, (⟨StatusOK, .json (encodeUser v)⟩ : Response)) :: post ∧
          ∀ e ∈ post, ∀ seg, e.1 = Req.delete seg → Atoi seg ≠ .ok v.ID) ∧
      (∀ b v, (Req.create b, (⟨StatusOK, .json (encodeUser v)⟩ : Response)) ∈
          exchanges decode emptyDB reqs →
        ∃ usr, decode b = .ok usr ∧ v.Username = usr.Username ∧ v.Password = usr.Password) := by
  have hinv := Inv_serveAll decode Inv_emptyDB reqs
  obtain ⟨users, hget, hrows⟩ := getUsers_of_Inv hinv r
  refine ⟨users, hget, ?_, ?_, ?_⟩
  · have hnd : (serveAll decode emptyDB reqs).rows.Nodup :=
      hinv.ids.imp (fun hab heq => hab (by rw [heq]))
    rw [hrows] at hnd
    exact hnd.of_map rowOf
  · intro v
    have hmem : v ∈ sliceElems users ↔ rowOf v ∈ (serveAll decode emptyDB reqs).rows := by
      rw [hrows, List.mem_map_of_injective rowOf_injective]
    rw [hmem, rows_after_run decode emptyDB reqs hcd (rowOf v)]
    constructor
    · rintro (⟨h, _⟩ | ⟨pre, post, b, w, hex, hrow, hnd⟩)
      · cases h
      · have := rowOf_injective hrow
        subst this
        exact ⟨pre, post, b, hex, hnd⟩
    · rintro ⟨pre, post, b, hex, hnd⟩
      exact Or.inr ⟨pre, post, b, v, hex, rfl, hnd⟩
  · intro b v hv
    obtain ⟨db', hresp⟩ := exchanges_create decode emptyDB reqs hv
    obtain ⟨usr, hd, _, hval, _⟩ := createUser_success hresp.symm
    exact ⟨usr, hd, by rw [hval], by rw [hval]⟩

theorem getUsers_lists_live_records_witness :
    (∀ q ∈ [Req.create "alice", .create "bob", .delete "1"], isCreateOrDelete q = true) ∧
    ∃ users : Option (List User),
      getUsers (serveAll (fun b => .ok ⟨0, b, "pw"⟩) emptyDB
          [.create "alice", .create "bob", .delete "1"]) ⟨"/users", ""⟩ =
        (⟨[⟨2, some "bob", some "pw"⟩], 2⟩, ⟨StatusOK, .json (encodeUsers users)⟩) ∧
      (sliceElems users).Nodup ∧
      (∀ v, v ∈ sliceElems users ↔
        ∃ pre post b,
          exchanges (fun b => .ok ⟨0, b, "pw"⟩) emptyDB
              [.create "alice", .create "bob", .delete "1"] =
            pre ++ (Req.create b, (⟨StatusOK, .json (encodeUser v)⟩ : Response)) :: post ∧
          ∀ e ∈ post, ∀ seg, e.1 = Req.delete seg → Atoi seg ≠ .ok v.ID) :=
  ⟨by decide,
   (getUsers_lists_live_records (fun b => .ok ⟨0, b, "pw"⟩)
      [.create "alice", .create "bob", .delete "1"] (by decide) ⟨"/users", ""⟩).imp
    (fun _ h => ⟨h.1, h.2.1, h.2.2.1⟩)⟩

/-! ## Every id can be named in a path -/

theorem digitChar_spec {d : Nat} (h : d < 10) :
    (Char.ofNat (48 + d)).isDigit = true ∧ (Char.ofNat (48 + d)).toNat - '0'.toNat = d ∧
    Char.ofNat (48 + d) ≠ '-' ∧ Char.ofNat (48 + d) ≠ '+' := by
  interval_cases d <;> decide

theorem natText_all_digits (n : Nat) : (natText n).all Char.isDigit = true := by
  unfold natText
  split
  · decide
  · rw [List.all_eq_true]
    intro c hc
    obtain ⟨d, hd, rfl⟩ := List.mem_map.mp hc
    exact (digitChar_spec (Nat.digits_lt_base (by norm_num) (List.mem_reverse.mp hd))).1

theorem natText_ne_nil (n : Nat) : natText n ≠ [] := by
  unfold natText
  split
  · simp
  · rename_i hn
    simp [Nat.digits_ne_nil_iff_ne_zero, hn]

theorem foldr_digitChar (L : List Nat) (hL : ∀ d ∈ L, d < 10) :
    L.foldr (fun d acc => acc * 10 + ((Char.ofNat (48 + d)).toNat - '0'.toNat)) 0 =
      Nat.ofDigits 10 L := by
  induction L with
  | nil => rfl
  | cons d rest ih =>
    rw [List.foldr_cons, ih (fun x hx => hL x (List.mem_cons_of_mem _ hx)), Nat.ofDigits_cons,
      (digitChar_spec (hL d (List.mem_cons_self _ _))).2.1]
    omega

theorem digitsValue_natText (n : Nat) : digitsValue (natText n) = n := by
  unfold natText
  split
  · rename_i hn; subst hn; decide
  · unfold digitsValue
    rw [List.foldl_map, List.foldl_reverse]
    rw [foldr_digitChar _ (fun d hd => Nat.digits_lt_base (by norm_num) hd), Nat.ofDigits_digits]

/-- Every id a 64-bit `int` can hold is what `Atoi` reads from its decimal text. -/
theorem Atoi_intText (i : Int) (hlo : minInt ≤ i) (hhi : i ≤ maxInt) :
    Atoi (intText i) = .ok i := by
  rw [Atoi_ok_iff]
  obtain ⟨c, cs, hcs⟩ := List.exists_cons_of_ne_nil (natText_ne_nil i.natAbs)
  have hall := natText_all_digits i.natAbs
  have hval := digitsValue_natText i.natAbs
  by_cases hneg : i < 0
  · have hdata : (intText i).data = '-' :: natText i.natAbs := by simp [intText, hneg]
    have hv : decimalValue (intText i) = i := by
      simp only [decimalValue, hdata, if_true, hval]
      omega
    refine ⟨?_, hv⟩
    simp only [isDecimalInt64, isDecimalInteger, hdata, true_or, if_true, hv, hall,
      Bool.and_true, Bool.and_eq_true, Bool.not_eq_true', decide_eq_true_eq]
    exact ⟨⟨by simp [hcs], hlo⟩, hhi⟩
  · have hdata : (intText i).data = c :: cs := by simp [intText, hneg, hcs]
    have hc : c.isDigit = true := by
      rw [hcs] at hall
      simp only [List.all_cons, Bool.and_eq_true] at hall
      exact hall.1
    have hc1 : c ≠ '-' := by rintro rfl; revert hc; decide
    have hc2 : c ≠ '+' := by rintro rfl; revert hc; decide
    have hv : decimalValue (intText i) = i := by
      unfold decimalValue
      rw [hdata]
      simp only [hc1, hc2, if_false]
      rw [← hcs, hval]
      omega
    refine ⟨?_, hv⟩
    simp only [isDecimalInt64, isDecimalInteger, hdata, hc1, hc2, or_self, if_false, hv,
      Bool.and_eq_true, decide_eq_true_eq]
    rw [← hcs]
    exact ⟨⟨hall, hlo⟩, hhi⟩

/-! ## Ids in a path: the range of `int` -/

theorem Atoi_range {seg : String} {id : Int} (h : Atoi seg = .ok id) :
    minInt ≤ id ∧ id ≤ maxInt := by
  obtain ⟨h64, hv⟩ := (Atoi_ok_iff seg id).mp h
  simp only [isDecimalInt64, Bool.and_eq_true, decide_eq_true_eq] at h64
  rw [← hv]
  exact ⟨h64.1.2, h64.2⟩

/-- C7, for the ids a 64-bit `int` holds: such an id is read by `Atoi` from its
decimal text, and on `/user/` followed by any text `Atoi` reads as `id`, with a
payload that decodes (whatever id and username it carries), `updateUser` answers
200; record by record the new table keeps id and username, sets the password to
the payload's where the id is `id`, and keeps every other record as it is; no
record is added or removed, and a table without that id is left unchanged. -/
theorem updateUser_changes_only_password (decode : String → Except String User) (db : DB)
    (body : String) (id : Int) (usr : User)
    (hlo : minInt ≤ id) (hhi : id ≤ maxInt) (hdec : decode body = .ok usr) :
    Atoi (intText id) = .ok id ∧
    ∀ seg, Atoi seg = .ok id →
      (updateUser decode db ⟨"/user/" ++ seg, body⟩).2 = ⟨StatusOK, .empty⟩ ∧
      List.Forall₂ (fun old new => new.id = old.id ∧ new.username = old.username ∧
          (old.id = id → new.password = some usr.Password) ∧ (old.id ≠ id → new = old))
        db.rows (updateUser decode db ⟨"/user/" ++ seg, body⟩).1.rows ∧
      (updateUser decode db ⟨"/user/" ++ seg, body⟩).1.rows.length = db.rows.length ∧
      (updateUser decode db ⟨"/user/" ++ seg, body⟩).1.seq = db.seq ∧
      ((∀ r ∈ db.rows, r.id ≠ id) →
        (updateUser decode db ⟨"/user/" ++ seg, body⟩).1 = db) :=
  ⟨Atoi_intText id hlo hhi, fun seg hid => updateUser_of_Atoi decode db seg body id usr hid hdec⟩

theorem updateUser_changes_only_password_witness :
    (minInt ≤ 2 ∧ (2 : Int) ≤ maxInt) ∧
    Atoi (intText 2) = .ok 2 ∧
    (updateUser (fun _ => .ok ⟨9, "mallory", "new"⟩)
        ⟨[⟨1, some "alice", some "a"⟩, ⟨2, some "bob", some "b"⟩], 2⟩ ⟨"/user/" ++ "2", "x"⟩).1 =
      ⟨[⟨1, some "alice", some "a"⟩, ⟨2, some "bob", some "new"⟩], 2⟩ ∧
    (updateUser (fun _ => .ok ⟨9, "mallory", "new"⟩)
        ⟨[⟨1, some "alice", some "a"⟩, ⟨2, some "bob", some "b"⟩], 2⟩
        ⟨"/user/" ++ "2", "x"⟩).2 = ⟨StatusOK, .empty⟩ :=
  have h := updateUser_changes_only_password (fun _ => .ok ⟨9, "mallory", "new"⟩)
    ⟨[⟨1, some "alice", some "a"⟩, ⟨2, some "bob", some "b"⟩], 2⟩ "x" 2
    ⟨9, "mallory", "new"⟩ (by decide) (by decide) rfl
  ⟨by decide, h.1, by decide, (h.2 "2" (by decide)).1⟩

/-- C7 as stated fails: the integer 9223372036854775808 is an id no path segment
is read as, and `updateUser` on `/user/9223372036854775808`, its decimal text,
with a payload that decodes answers 400, not 200, and changes no record. -/
theorem updateUser_large_id_400 :
    intText 9223372036854775808 = "9223372036854775808" ∧
    (∀ seg, Atoi seg ≠ .ok 9223372036854775808) ∧
    (updateUser (fun _ => .ok ⟨9, "mallory", "new"⟩)
        ⟨[⟨1, some "alice", some "a"⟩], 1⟩
        ⟨"/user/9223372036854775808", "x"⟩).2.status = StatusBadRequest ∧
    (updateUser (fun _ => .ok ⟨9, "mallory", "new"⟩)
        ⟨[⟨1, some "alice", some "a"⟩], 1⟩
        ⟨"/user/9223372036854775808", "x"⟩).2.status ≠ StatusOK := by
  refine ⟨by norm_num [intText, natText], ?_, by decide, by decide⟩
  intro seg h
  have := (Atoi_range h).2
  simp only [maxInt] at this
  omega

/-- C6, for the ids a 64-bit `int` holds: such an id is read by `Atoi` from its
decimal text, and on `/user/` followed by any text `Atoi` reads as `id`
`deleteUser` answers 200; afterwards no record has that id, neither in the table
nor in a following list, every record with another id is kept as often as before,
and both an update (with a payload that decodes) and a second delete on the same
path answer 200 and leave the store as it is. -/
theorem deleteUser_then_absent (decode : String → Except String User) (db : DB)
    (body body' : String) (id : Int) (usr : User) (q : Request)
    (hlo : minInt ≤ id) (hhi : id ≤ maxInt) (hdec : decode body = .ok usr) :
    Atoi (intText id) = .ok id ∧
    ∀ seg, Atoi seg = .ok id →
      (deleteUser db ⟨"/user/" ++ seg, body'⟩).2 = ⟨StatusOK, .empty⟩ ∧
      (∀ r ∈ (deleteUser db ⟨"/user/" ++ seg, body'⟩).1.rows, r.id ≠ id) ∧
      (∀ users, (getUsers (deleteUser db ⟨"/user/" ++ seg, body'⟩).1 q).2 =
          ⟨StatusOK, .json (encodeUsers users)⟩ → ∀ v ∈ sliceElems users, v.ID ≠ id) ∧
      (∀ r, r.id ≠ id →
        (deleteUser db ⟨"/user/" ++ seg, body'⟩).1.rows.count r = db.rows.count r) ∧
      (deleteUser db ⟨"/user/" ++ seg, body'⟩).1.seq = db.seq ∧
      updateUser decode (deleteUser db ⟨"/user/" ++ seg, body'⟩).1 ⟨"/user/" ++ seg, body⟩ =
        ((deleteUser db ⟨"/user/" ++ seg, body'⟩).1, ⟨StatusOK, .empty⟩) ∧
      deleteUser (deleteUser db ⟨"/user/" ++ seg, body'⟩).1 ⟨"/user/" ++ seg, body'⟩ =
        ((deleteUser db ⟨"/user/" ++ seg, body'⟩).1, ⟨StatusOK, .empty⟩) :=
  ⟨Atoi_intText id hlo hhi,
   fun seg hid => deleteUser_of_Atoi decode db seg body body' id usr q hid hdec⟩

theorem deleteUser_then_absent_witness :
    (minInt ≤ 1 ∧ (1 : Int) ≤ maxInt) ∧
    Atoi (intText 1) = .ok 1 ∧
    (deleteUser ⟨[⟨1, some "alice", some "a"⟩, ⟨2, some "bob", some "b"⟩], 2⟩
        ⟨"/user/" ++ "1", ""⟩).1 = ⟨[⟨2, some "bob", some "b"⟩], 2⟩ ∧
    (deleteUser ⟨[⟨1, some "alice", some "a"⟩, ⟨2, some "bob", some "b"⟩], 2⟩
        ⟨"/user/" ++ "1", ""⟩).2 = ⟨StatusOK, .empty⟩ :=
  have h := deleteUser_then_absent (fun _ => .ok ⟨0, "", "pw"⟩)
    ⟨[⟨1, some "alice", some "a"⟩, ⟨2, some "bob", some "b"⟩], 2⟩ "x" "" 1
    ⟨0, "", "pw"⟩ ⟨"/users", ""⟩ (by decide) (by decide) rfl
  ⟨by decide, h.1, by decide, (h.2 "1" (by decide)).1⟩

/-- C6 as stated fails: the integer 9223372036854775808 is an id no path segment
is read as, and `deleteUser` on `/user/9223372036854775808`, its decimal text,
answers 400, not 200. -/
theorem deleteUser_large_id_400 :
    intText 9223372036854775808 = "9223372036854775808" ∧
    (∀ seg, Atoi seg ≠ .ok 9223372036854775808) ∧
    (deleteUser ⟨[⟨1, some "alice", some "a"⟩], 1⟩
        ⟨"/user/9223372036854775808", ""⟩).2.status = StatusBadRequest ∧
    (deleteUser ⟨[⟨1, some "alice", some "a"⟩], 1⟩
        ⟨"/user/9223372036854775808", ""⟩).2.status ≠ StatusOK := by
  refine ⟨by norm_num [intText, natText], ?_, by decide, by decide⟩
  intro seg h
  have := (Atoi_range h).2
  simp only [maxInt] at this
  omega

end FyneLogin
